import Mathlib

/-!
# Verification of the deep-research workflow engine

Shallow embedding of the section-merge reducer, the plan/dispatch and
review routing of the deep-research workflow, and two UI helper
functions (`ResearchProgress`, `getFinalAnswerContent`), together with
proofs of the specified properties.
-/

set_option autoImplicit false

namespace ResearchAgent

/-! ## Data model (from `src/deep_research/README.md` and the UI `Section` interface) -/

/-- Lifecycle status of a research section: `pending → researching → completed`. -/
inductive SectionStatus where
  | pending
  | researching
  | completed
deriving DecidableEq, Repr

/-- A research section, the unit of parallel research and report composition. -/
structure Section where
  title : String
  description : String
  status : SectionStatus
  content : String
  sources : List String
deriving DecidableEq, Repr

/-! ## SectionStore merge (`section_reducer`, README appendix)

Python source:
```
def section_reducer(existing, updates):
    result = list(existing)
    existing_titles = {s.title: i for i, s in enumerate(result)}
    for update in updates:
        if update.title in existing_titles:
            result[existing_titles[update.title]] = update
        else:
            result.append(update)
    return result
```
The dict comprehension maps each title to the **last** index at which it
occurs in `existing`, and the index is built once, before the loop. -/

/-- Index of the last occurrence of title `t` in a list of sections,
mirroring the Python dict comprehension `{s.title: i for i, s in enumerate(result)}`
(later entries overwrite earlier ones). -/
def lastIdxOf (t : String) : List Section → Option Nat
  | [] => none
  | s :: rest =>
    match lastIdxOf t rest with
    | some i => some (i + 1)
    | none => if s.title = t then some 0 else none

/-- One iteration of the `for update in updates` loop: replace at the
pre-computed index when the title is present in `existing`, append otherwise. -/
def mergeStep (existing : List Section) (result : List Section) (update : Section) : List Section :=
  match lastIdxOf update.title existing with
  | some i => result.set i update
  | none => result ++ [update]

/-- `section_reducer` from the README appendix: fold the loop body over
`updates`, starting from a copy of `existing`, with the title index frozen
at entry. -/
def section_reducer (existing updates : List Section) : List Section :=
  updates.foldl (mergeStep existing) existing

/-- Last update in `updates` whose title is `t` (the value that ends up at
that title's slot after the loop), `none` when no update carries title `t`. -/
def lastMatch (t : String) : List Section → Option Section
  | [] => none
  | x :: rest =>
    match lastMatch t rest with
    | some v => some v
    | none => if x.title = t then some x else none

/-- Boolean test used by the `else: result.append(update)` branch:
the update's title does not occur in `existing`. -/
def noTitleIn (existing : List Section) (x : Section) : Bool :=
  (lastIdxOf x.title existing).isNone

/-- The updates that the reducer appends (titles absent from `existing`),
in update order. -/
def appendedUpdates (existing updates : List Section) : List Section :=
  updates.filter (noTitleIn existing)

/-- Placeholder section used only to make positional access total. -/
def defaultSec : Section := ⟨"", "", .pending, "", []⟩

/-- Value left by the reducer at position `i < existing.length`: the entry is
overwritten by the last matching update exactly when `i` is the last
occurrence of its own title. -/
def mergeAt (existing updates : List Section) (i : Nat) : Section :=
  let s := (existing[i]?).getD defaultSec
  if lastIdxOf s.title existing = some i then (lastMatch s.title updates).getD s else s

/-! ### Lemmas about `lastIdxOf` and `lastMatch` -/

theorem mem_of_getElem?_some {α : Type} : ∀ {l : List α} {i : Nat} {v : α},
    l[i]? = some v → v ∈ l := by
  intro l
  induction l with
  | nil => intro i v h; simp at h
  | cons x xs ih =>
    intro i v h
    cases i with
    | zero =>
      simp only [List.getElem?_cons_zero, Option.some.injEq] at h
      exact h ▸ List.mem_cons_self x xs
    | succ j =>
      simp only [List.getElem?_cons_succ] at h
      exact List.mem_cons_of_mem x (ih h)

theorem lastIdxOf_lt_length {t : String} : ∀ {l : List Section} {i : Nat},
    lastIdxOf t l = some i → i < l.length := by
  intro l
  induction l with
  | nil => intro i h; simp [lastIdxOf] at h
  | cons s rest ih =>
    intro i h
    rcases hr : lastIdxOf t rest with _ | j
    · simp only [lastIdxOf, hr] at h
      split_ifs at h with hst
      · simp only [Option.some.injEq] at h
        subst h; simp
    · simp only [lastIdxOf, hr, Option.some.injEq] at h
      subst h
      exact Nat.succ_lt_succ (ih hr)

theorem lastIdxOf_title {t : String} : ∀ {l : List Section} {i : Nat},
    lastIdxOf t l = some i → ∃ v, l[i]? = some v ∧ v.title = t := by
  intro l
  induction l with
  | nil => intro i h; simp [lastIdxOf] at h
  | cons s rest ih =>
    intro i h
    rcases hr : lastIdxOf t rest with _ | j
    · simp only [lastIdxOf, hr] at h
      split_ifs at h with hst
      · simp only [Option.some.injEq] at h
        subst h
        exact ⟨s, by simp, hst⟩
    · simp only [lastIdxOf, hr, Option.some.injEq] at h
      subst h
      obtain ⟨v, hv, hvt⟩ := ih hr
      exact ⟨v, by simpa using hv, hvt⟩

theorem lastIdxOf_eq_none_iff {t : String} : ∀ {l : List Section},
    lastIdxOf t l = none ↔ ∀ v ∈ l, v.title ≠ t := by
  intro l
  induction l with
  | nil => simp [lastIdxOf]
  | cons s rest ih =>
    rcases hr : lastIdxOf t rest with _ | j
    · rw [hr] at ih
      simp only [lastIdxOf, hr]
      constructor
      · intro h
        split_ifs at h with hst
        intro v hv
        rcases List.mem_cons.mp hv with rfl | hv'
        · exact hst
        · exact ih.mp rfl v hv'
      · intro h
        have hst : s.title ≠ t := h s (List.mem_cons_self s rest)
        simp [hst]
    · simp only [lastIdxOf, hr]
      constructor
      · intro h; cases h
      · intro h
        exfalso
        obtain ⟨v, hv, hvt⟩ := lastIdxOf_title hr
        exact h v (List.mem_cons_of_mem s (mem_of_getElem?_some hv)) hvt

theorem lastIdxOf_isSome_of_mem {t : String} {l : List Section} {v : Section}
    (hv : v ∈ l) (hvt : v.title = t) : (lastIdxOf t l).isSome := by
  rcases h : lastIdxOf t l with _ | i
  · exact absurd hvt (lastIdxOf_eq_none_iff.mp h v hv)
  · simp

theorem lastIdxOf_append {t : String} : ∀ (a b : List Section),
    lastIdxOf t (a ++ b) =
      match lastIdxOf t b with
      | some i => some (a.length + i)
      | none => lastIdxOf t a := by
  intro a b
  induction a with
  | nil =>
    rcases hb : lastIdxOf t b with _ | i <;> simp [hb, lastIdxOf]
  | cons s rest ih =>
    show lastIdxOf t (s :: (rest ++ b)) = _
    simp only [lastIdxOf, ih]
    rcases hb : lastIdxOf t b with _ | i
    · rfl
    · simp [List.length_cons, Nat.succ_add, Nat.add_right_comm]

theorem lastIdxOf_congr_titles {t : String} : ∀ {a b : List Section},
    a.map Section.title = b.map Section.title → lastIdxOf t a = lastIdxOf t b := by
  intro a
  induction a with
  | nil =>
    intro b h
    have hb : b = [] := by
      cases b with
      | nil => rfl
      | cons x xs => simp at h
    subst hb; rfl
  | cons s rest ih =>
    intro b h
    cases b with
    | nil => simp at h
    | cons x xs =>
      simp only [List.map_cons, List.cons.injEq] at h
      obtain ⟨h1, h2⟩ := h
      simp only [lastIdxOf, ih h2, h1]

theorem lastMatch_title {t : String} : ∀ {l : List Section} {v : Section},
    lastMatch t l = some v → v.title = t := by
  intro l
  induction l with
  | nil => intro v h; simp [lastMatch] at h
  | cons x rest ih =>
    intro v h
    rcases hr : lastMatch t rest with _ | w
    · simp only [lastMatch, hr] at h
      split_ifs at h with hxt
      · simp only [Option.some.injEq] at h
        subst h; exact hxt
    · simp only [lastMatch, hr, Option.some.injEq] at h
      subst h
      exact ih hr

theorem lastMatch_mem {t : String} : ∀ {l : List Section} {v : Section},
    lastMatch t l = some v → v ∈ l := by
  intro l
  induction l with
  | nil => intro v h; simp [lastMatch] at h
  | cons x rest ih =>
    intro v h
    rcases hr : lastMatch t rest with _ | w
    · simp only [lastMatch, hr] at h
      split_ifs at h with hxt
      · simp only [Option.some.injEq] at h
        subst h; exact List.mem_cons_self x rest
    · simp only [lastMatch, hr, Option.some.injEq] at h
      subst h
      exact List.mem_cons_of_mem x (ih hr)

theorem lastMatch_concat (t : String) (x : Section) : ∀ (u : List Section),
    lastMatch t (u ++ [x]) = if x.title = t then some x else lastMatch t u := by
  intro u
  induction u with
  | nil => simp [lastMatch]
  | cons y rest ih =>
    show lastMatch t (y :: (rest ++ [x])) = _
    simp only [lastMatch, ih]
    split_ifs <;> rfl

theorem lastMatch_eq_none_iff {t : String} : ∀ {l : List Section},
    lastMatch t l = none ↔ ∀ v ∈ l, v.title ≠ t := by
  intro l
  induction l with
  | nil => simp [lastMatch]
  | cons x rest ih =>
    rcases hr : lastMatch t rest with _ | w
    · rw [hr] at ih
      simp only [lastMatch, hr]
      constructor
      · intro h
        split_ifs at h with hxt
        intro v hv
        rcases List.mem_cons.mp hv with rfl | hv'
        · exact hxt
        · exact ih.mp rfl v hv'
      · intro h
        have hxt : x.title ≠ t := h x (List.mem_cons_self x rest)
        simp [hxt]
    · simp only [lastMatch, hr]
      constructor
      · intro h; cases h
      · intro h
        exact absurd (lastMatch_title hr)
          (h w (List.mem_cons_of_mem x (lastMatch_mem hr)))

theorem lastMatch_filter {t : String} {p : Section → Bool}
    (hp : ∀ y : Section, y.title = t → p y = true) :
    ∀ (l : List Section), lastMatch t (l.filter p) = lastMatch t l := by
  intro l
  induction l with
  | nil => simp
  | cons x rest ih =>
    by_cases hx : p x = true
    · rw [List.filter_cons_of_pos hx]
      simp only [lastMatch, ih]
    · have hxt : x.title ≠ t := fun h => hx (hp x h)
      rw [List.filter_cons_of_neg (by simpa using hx)]
      rw [ih]
      rcases hr : lastMatch t rest with _ | w
      · simp [lastMatch, hr, hxt]
      · simp [lastMatch, hr]

theorem lastIdxOf_getElem?_lastMatch {t : String} : ∀ {l : List Section} {j : Nat},
    lastIdxOf t l = some j → l[j]? = lastMatch t l := by
  intro l
  induction l with
  | nil => intro j h; simp [lastIdxOf] at h
  | cons x rest ih =>
    intro j h
    rcases hr : lastIdxOf t rest with _ | i
    · simp only [lastIdxOf, hr] at h
      split_ifs at h with hxt
      · simp only [Option.some.injEq] at h
        subst h
        have hrest : lastMatch t rest = none :=
          lastMatch_eq_none_iff.mpr (lastIdxOf_eq_none_iff.mp hr)
        simp [lastMatch, hrest, hxt]
    · simp only [lastIdxOf, hr, Option.some.injEq] at h
      subst h
      have hget := ih hr
      have hlt := lastIdxOf_lt_length hr
      have hv : rest[i]? = some rest[i] := List.getElem?_eq_getElem hlt
      rw [hv] at hget
      simp only [List.getElem?_cons_succ, lastMatch, ← hget, hv]

/-! ### Characterization of `section_reducer` -/

theorem section_reducer_nil (e : List Section) : section_reducer e [] = e := rfl

theorem section_reducer_concat (e u : List Section) (x : Section) :
    section_reducer e (u ++ [x]) = mergeStep e (section_reducer e u) x := by
  simp [section_reducer, List.foldl_append]

theorem appendedUpdates_concat (e u : List Section) (x : Section) :
    appendedUpdates e (u ++ [x]) =
      appendedUpdates e u ++ (if noTitleIn e x then [x] else []) := by
  simp only [appendedUpdates, List.filter_append, List.filter]
  split_ifs with h <;> simp [h]

theorem section_reducer_length (e u : List Section) :
    (section_reducer e u).length = e.length + (appendedUpdates e u).length := by
  induction u using List.reverseRecOn with
  | nil => simp [section_reducer_nil, appendedUpdates]
  | append_singleton us x ih =>
    rw [section_reducer_concat, appendedUpdates_concat, mergeStep]
    rcases h : lastIdxOf x.title e with _ | i
    · have : noTitleIn e x = true := by simp [noTitleIn, h]
      simp [this, ih, Nat.add_assoc]
    · have : noTitleIn e x = false := by simp [noTitleIn, h]
      simp [this, ih]

theorem mergeAt_nil (e : List Section) (n : Nat) :
    mergeAt e [] n = (e[n]?).getD defaultSec := by
  simp only [mergeAt, lastMatch]
  split_ifs <;> simp

/-- Pointwise description of the reducer output: positions inside `existing`
hold `mergeAt`, positions beyond hold the appended updates. -/
theorem section_reducer_getElem? (e u : List Section) : ∀ (n : Nat),
    (section_reducer e u)[n]? =
      if n < e.length then some (mergeAt e u n)
      else (appendedUpdates e u)[n - e.length]? := by
  induction u using List.reverseRecOn with
  | nil =>
    intro n
    rw [section_reducer_nil]
    by_cases hn : n < e.length
    · simp [hn, mergeAt_nil, List.getElem?_eq_getElem hn]
    · simp [hn, appendedUpdates, List.getElem?_eq_none (Nat.le_of_not_lt hn)]
  | append_singleton us x ih =>
    intro n
    rw [section_reducer_concat, appendedUpdates_concat]
    have hRlen : (section_reducer e us).length = e.length + (appendedUpdates e us).length :=
      section_reducer_length e us
    rcases hx : lastIdxOf x.title e with _ | i
    · -- title absent from `existing`: the update is appended
      have hnt : noTitleIn e x = true := by simp [noTitleIn, hx]
      simp only [mergeStep, hx, hnt, if_true]
      by_cases hn : n < e.length
      · have hnR : n < (section_reducer e us).length := by omega
        rw [List.getElem?_append_left hnR, ih n, if_pos hn, if_pos hn]
        congr 1
        simp only [mergeAt]
        split_ifs with hc
        · have hst : x.title ≠ (e[n]?.getD defaultSec).title := by
            intro hEq
            rw [← hEq, hx] at hc
            cases hc
          rw [lastMatch_concat, if_neg hst]
        · rfl
      · rw [if_neg hn]
        by_cases hk : n < (section_reducer e us).length
        · rw [List.getElem?_append_left hk, ih n, if_neg hn,
            List.getElem?_append_left (by omega)]
        · rw [List.getElem?_append_right (Nat.le_of_not_lt hk),
            List.getElem?_append_right (by omega), hRlen]
          congr 1
          omega
    · -- title present in `existing`: replace at the last occurrence
      have hnt : noTitleIn e x = false := by simp [noTitleIn, hx]
      simp only [mergeStep, hx, hnt, Bool.false_eq_true, if_false, List.append_nil]
      have hie : i < e.length := lastIdxOf_lt_length hx
      by_cases hni : n = i
      · subst hni
        have hnR : n < (section_reducer e us).length := by omega
        rw [List.getElem?_set_self hnR, if_pos hie]
        obtain ⟨v, hv, hvt⟩ := lastIdxOf_title hx
        congr 1
        simp only [mergeAt, hv, Option.getD_some, hvt, hx, if_pos rfl]
        rw [lastMatch_concat, if_pos rfl]
        rfl
      · rw [List.getElem?_set_ne (fun h => hni h.symm), ih n]
        by_cases hn : n < e.length
        · rw [if_pos hn, if_pos hn]
          congr 1
          simp only [mergeAt]
          split_ifs with hc
          · have hst : x.title ≠ (e[n]?.getD defaultSec).title := by
              intro hEq
              rw [← hEq, hx] at hc
              simp only [Option.some.injEq] at hc
              exact hni hc.symm
            rw [lastMatch_concat, if_neg hst]
          · rfl
        · rw [if_neg hn, if_neg hn]

theorem mergeAt_title (e u : List Section) (n : Nat) :
    (mergeAt e u n).title = ((e[n]?).getD defaultSec).title := by
  simp only [mergeAt]
  split_ifs with hc
  · rcases hm : lastMatch ((e[n]?.getD defaultSec).title) u with _ | v
    · simp
    · simpa using lastMatch_title hm
  · rfl

theorem section_reducer_drop (e u : List Section) :
    (section_reducer e u).drop e.length = appendedUpdates e u := by
  apply List.ext_getElem?
  intro k
  rw [List.getElem?_drop, section_reducer_getElem?]
  rw [if_neg (by omega)]
  congr 1
  omega

theorem section_reducer_take_titles (e u : List Section) :
    ((section_reducer e u).take e.length).map Section.title = e.map Section.title := by
  apply List.ext_getElem?
  intro n
  rcases Nat.lt_or_ge n e.length with hn | hn
  · have hRlen := section_reducer_length e u
    have htk : n < ((section_reducer e u).take e.length).length := by
      simp [List.length_take]
      omega
    rw [List.getElem?_map, List.getElem?_map]
    have h1 : ((section_reducer e u).take e.length)[n]? = (section_reducer e u)[n]? := by
      rw [List.getElem?_take]
      simp [hn]
    rw [h1, section_reducer_getElem?, if_pos hn, List.getElem?_eq_getElem hn]
    simp [mergeAt_title, List.getElem?_eq_getElem hn]
  · have hRlen := section_reducer_length e u
    rw [List.getElem?_eq_none, List.getElem?_eq_none] <;>
      simp [List.length_take] <;> omega

/-- How `lastIdxOf` looks on a reducer output: appended titles are found past
`e.length`, other titles where they were in `e`. -/
theorem lastIdxOf_section_reducer (e u : List Section) (t : String) :
    lastIdxOf t (section_reducer e u) =
      match lastIdxOf t (appendedUpdates e u) with
      | some j => some (e.length + j)
      | none => lastIdxOf t e := by
  have hsplit : section_reducer e u =
      (section_reducer e u).take e.length ++ appendedUpdates e u := by
    rw [← section_reducer_drop e u]
    exact (List.take_append_drop e.length (section_reducer e u)).symm
  rw [hsplit, lastIdxOf_append]
  have hlen : ((section_reducer e u).take e.length).length = e.length := by
    have := section_reducer_length e u
    simp [List.length_take]
    omega
  have hcongr : lastIdxOf t ((section_reducer e u).take e.length) = lastIdxOf t e :=
    lastIdxOf_congr_titles (section_reducer_take_titles e u)
  rcases hA : lastIdxOf t (appendedUpdates e u) with _ | j
  · simpa using hcongr
  · simp [hlen]

theorem lastIdxOf_reducer_isSome_of_mem {e u : List Section} {x : Section} (hx : x ∈ u) :
    (lastIdxOf x.title (section_reducer e u)).isSome := by
  rw [lastIdxOf_section_reducer]
  rcases hA : lastIdxOf x.title (appendedUpdates e u) with _ | j
  · rcases he : lastIdxOf x.title e with _ | i
    · exfalso
      have hmem : x ∈ appendedUpdates e u := by
        refine List.mem_filter.mpr ⟨hx, ?_⟩
        simp [noTitleIn, he]
      have hs := lastIdxOf_isSome_of_mem hmem rfl
      rw [hA] at hs
      simp at hs
    · simp
  · simp

theorem appendedUpdates_reducer (e u : List Section) :
    appendedUpdates (section_reducer e u) u = [] := by
  rw [appendedUpdates, List.filter_eq_nil_iff]
  intro x hx
  have hs := lastIdxOf_reducer_isSome_of_mem (e := e) hx
  rcases h : lastIdxOf x.title (section_reducer e u) with _ | i
  · rw [h] at hs; simp at hs
  · simp [noTitleIn, h]

theorem mergeAt_reducer_lt (e u : List Section) (n : Nat) (hn2 : n < e.length)
    (hn : n < (section_reducer e u).length) :
    mergeAt (section_reducer e u) u n = (section_reducer e u)[n] := by
  have hchar : (section_reducer e u)[n]? = some (mergeAt e u n) := by
    rw [section_reducer_getElem?, if_pos hn2]
  have hval : (section_reducer e u)[n] = mergeAt e u n := by
    rw [List.getElem?_eq_getElem hn] at hchar
    exact Option.some.inj hchar
  have htitle : ((section_reducer e u)[n]).title = ((e[n]?).getD defaultSec).title := by
    rw [hval, mergeAt_title]
  have hse : (e[n]?).getD defaultSec ∈ e := by
    rw [List.getElem?_eq_getElem hn2]
    exact List.getElem_mem hn2
  have hesome : (lastIdxOf (((e[n]?).getD defaultSec).title) e).isSome :=
    lastIdxOf_isSome_of_mem hse rfl
  have hAnone : lastIdxOf (((e[n]?).getD defaultSec).title) (appendedUpdates e u) = none := by
    apply lastIdxOf_eq_none_iff.mpr
    intro v hv hvt
    have hnv : noTitleIn e v = true := (List.mem_filter.mp hv).2
    rw [noTitleIn, hvt] at hnv
    rcases hi : lastIdxOf (((e[n]?).getD defaultSec).title) e with _ | i
    · rw [hi] at hesome; simp at hesome
    · rw [hi] at hnv; simp at hnv
  have hm1idx : lastIdxOf (((e[n]?).getD defaultSec).title) (section_reducer e u) =
      lastIdxOf (((e[n]?).getD defaultSec).title) e := by
    rw [lastIdxOf_section_reducer, hAnone]
  simp only [mergeAt]
  rw [List.getElem?_eq_getElem hn, Option.getD_some, htitle, hm1idx]
  by_cases hc : lastIdxOf (((e[n]?).getD defaultSec).title) e = some n
  · rw [if_pos hc]
    have hval2 : mergeAt e u n =
        (lastMatch (((e[n]?).getD defaultSec).title) u).getD ((e[n]?).getD defaultSec) := by
      simp only [mergeAt]
      rw [if_pos hc]
    rw [hval, hval2]
    rcases hlm : lastMatch (((e[n]?).getD defaultSec).title) u with _ | v
    · simp
    · simp
  · rw [if_neg hc]

theorem mergeAt_reducer_ge (e u : List Section) (n : Nat) (hn2 : ¬ n < e.length)
    (hn : n < (section_reducer e u).length) :
    mergeAt (section_reducer e u) u n = (section_reducer e u)[n] := by
  have hRlen := section_reducer_length e u
  have hk : n - e.length < (appendedUpdates e u).length := by omega
  have hchar : (section_reducer e u)[n]? = some ((appendedUpdates e u)[n - e.length]) := by
    rw [section_reducer_getElem?, if_neg hn2]
    exact List.getElem?_eq_getElem hk
  have hval : (section_reducer e u)[n] = (appendedUpdates e u)[n - e.length] := by
    rw [List.getElem?_eq_getElem hn] at hchar
    exact Option.some.inj hchar
  have hmem : (appendedUpdates e u)[n - e.length] ∈ appendedUpdates e u :=
    List.getElem_mem hk
  have hmemf := List.mem_filter.mp hmem
  have henone : lastIdxOf ((appendedUpdates e u)[n - e.length]).title e = none :=
    Option.isNone_iff_eq_none.mp hmemf.2
  have hsome : (lastIdxOf ((appendedUpdates e u)[n - e.length]).title
      (appendedUpdates e u)).isSome := lastIdxOf_isSome_of_mem hmem rfl
  rcases hj : lastIdxOf ((appendedUpdates e u)[n - e.length]).title (appendedUpdates e u)
    with _ | j
  · rw [hj] at hsome; simp at hsome
  · have hm1idx : lastIdxOf ((appendedUpdates e u)[n - e.length]).title
        (section_reducer e u) = some (e.length + j) := by
      rw [lastIdxOf_section_reducer, hj]
    simp only [mergeAt]
    rw [List.getElem?_eq_getElem hn, Option.getD_some, hval, hm1idx]
    by_cases hcn : e.length + j = n
    · rw [if_pos (by rw [hcn])]
      have hp : ∀ y : Section, y.title = ((appendedUpdates e u)[n - e.length]).title →
          noTitleIn e y = true := by
        intro y hy
        rw [noTitleIn, hy, henone]
        rfl
      have h1 : lastMatch ((appendedUpdates e u)[n - e.length]).title u =
          lastMatch ((appendedUpdates e u)[n - e.length]).title (appendedUpdates e u) :=
        (lastMatch_filter hp u).symm
      have h2 : (appendedUpdates e u)[j]? =
          lastMatch ((appendedUpdates e u)[n - e.length]).title (appendedUpdates e u) :=
        lastIdxOf_getElem?_lastMatch hj
      have hjk : j = n - e.length := by omega
      have h3 : (appendedUpdates e u)[j]? = some ((appendedUpdates e u)[n - e.length]) := by
        rw [hjk]
        exact List.getElem?_eq_getElem hk
      rw [h1, ← h2, h3]
      simp
    · rw [if_neg (fun h => hcn (Option.some.inj h))]

/-! ### Merge properties claimed by the spec -/

theorem noTitleIn_eq_decide (e : List Section) (x : Section) :
    noTitleIn e x = decide (∀ s ∈ e, s.title ≠ x.title) := by
  rcases h : lastIdxOf x.title e with _ | i
  · have hall := lastIdxOf_eq_none_iff.mp h
    simp only [noTitleIn, h, Option.isNone_none]
    exact (decide_eq_true hall).symm
  · have hnot : ¬ (∀ s ∈ e, s.title ≠ x.title) := by
      obtain ⟨v, hv, hvt⟩ := lastIdxOf_title h
      intro hall
      exact hall v (mem_of_getElem?_some hv) hvt
    simp only [noTitleIn, h, Option.isNone_some]
    exact (decide_eq_false hnot).symm

theorem nodup_lastIdxOf : ∀ {e : List Section},
    (e.map Section.title).Nodup → ∀ (n : Nat) (hn : n < e.length),
      lastIdxOf (e[n].title) e = some n := by
  intro e
  induction e with
  | nil => intro _ n hn; simp at hn
  | cons x rest ih =>
    intro h n hn
    have h' : (∀ v ∈ rest, v.title ≠ x.title) ∧ (rest.map Section.title).Nodup := by
      simpa using h
    cases n with
    | zero =>
      have hnone : lastIdxOf x.title rest = none := by
        apply lastIdxOf_eq_none_iff.mpr
        intro v hv hvt
        exact h'.1 v hv hvt
      simp [lastIdxOf, hnone]
    | succ m =>
      have hm : m < rest.length := by simpa using hn
      have hrec := ih h'.2 m hm
      simp [lastIdxOf, hrec]

/-- The merge contract exactly as the spec words it: every existing entry is
replaced in place by the last update carrying its title (or kept when no
update does), and the updates whose titles do not occur in `existing` are
appended at the end, in update order. -/
def mergeSpecForm (existing updates : List Section) : List Section :=
  existing.map (fun s => (lastMatch s.title updates).getD s)
    ++ updates.filter (fun x => decide (∀ s ∈ existing, s.title ≠ x.title))

/-- **C1**: on section sequences whose titles are unique (the data-model
invariant for `sections`), `section_reducer` returns exactly the sequence in
which each update with a known title replaces the entry at that title's
original position and every other update is appended at the end in update
order. -/
theorem c1_section_reducer_replace_or_append (e u : List Section)
    (h : (e.map Section.title).Nodup) :
    section_reducer e u = mergeSpecForm e u := by
  apply List.ext_getElem?
  intro n
  rw [section_reducer_getElem?]
  unfold mergeSpecForm
  have hfil : u.filter (fun x => decide (∀ s ∈ e, s.title ≠ x.title)) =
      appendedUpdates e u := by
    unfold appendedUpdates
    exact (List.filter_congr (fun x _ => noTitleIn_eq_decide e x)).symm
  rw [hfil]
  by_cases hn : n < e.length
  · rw [if_pos hn]
    rw [List.getElem?_append_left (by simpa using hn)]
    rw [List.getElem?_map, List.getElem?_eq_getElem hn]
    simp only [Option.map_some']
    congr 1
    simp only [mergeAt]
    rw [List.getElem?_eq_getElem hn, Option.getD_some, if_pos (nodup_lastIdxOf h n hn)]
  · rw [if_neg hn]
    rw [List.getElem?_append_right (by simpa using Nat.le_of_not_lt hn)]
    rw [List.length_map]

/-- Witness for C1 at a concrete input: two existing sections, one update
replacing the first in place and one new update appended. -/
theorem c1_witness :
    (([⟨"A", "a", .completed, "ca", []⟩, ⟨"B", "b", .completed, "cb", []⟩] :
        List Section).map Section.title).Nodup ∧
      section_reducer
          [⟨"A", "a", .completed, "ca", []⟩, ⟨"B", "b", .completed, "cb", []⟩]
          [⟨"A", "a2", .completed, "ca2", []⟩, ⟨"C", "c", .pending, "", []⟩] =
        mergeSpecForm
          [⟨"A", "a", .completed, "ca", []⟩, ⟨"B", "b", .completed, "cb", []⟩]
          [⟨"A", "a2", .completed, "ca2", []⟩, ⟨"C", "c", .pending, "", []⟩] :=
  ⟨by decide, c1_section_reducer_replace_or_append _ _ (by decide)⟩

/-- **C6**: the SectionStore merge is idempotent over updates — applying the
same update batch twice yields the same sequence as applying it once, for
every `existing` and every `updates`. -/
theorem c6_section_reducer_idempotent (e u : List Section) :
    section_reducer (section_reducer e u) u = section_reducer e u := by
  have hRlen := section_reducer_length e u
  apply List.ext_getElem?
  intro n
  rw [section_reducer_getElem? (section_reducer e u) u n, appendedUpdates_reducer]
  by_cases hn : n < (section_reducer e u).length
  · rw [if_pos hn, List.getElem?_eq_getElem hn]
    congr 1
    by_cases hn2 : n < e.length
    · exact mergeAt_reducer_lt e u n hn2 hn
    · exact mergeAt_reducer_ge e u n hn2 hn
  · rw [if_neg hn, List.getElem?_eq_none (Nat.le_of_not_lt hn)]
    simp

/-! ## Review sufficiency decision

Translated from the decision rules of the review prompt
(`reflect` template, 决策逻辑):
- `overall_score >= 7` and no key gaps → `is_sufficient: true`;
- maximum iteration count reached → `is_sufficient: true` (forced);
- otherwise → `is_sufficient: false`. -/

/-- The review sufficiency decision, rule by rule as the reflect prompt
states it. -/
def reviewIsSufficient (overallScore : Nat) (gaps : List String)
    (iterationCount maxIterations : Nat) : Bool :=
  if 7 ≤ overallScore ∧ gaps = [] then true
  else if maxIterations ≤ iterationCount then true
  else false

/-- **C2**: at or past the iteration cap the review is sufficient regardless
of score and gaps; below the cap it is sufficient exactly when the score is
at least 7 and there are no gaps. -/
theorem c2_review_sufficiency_rule (overallScore iterationCount maxIterations : Nat)
    (gaps : List String) :
    reviewIsSufficient overallScore gaps iterationCount maxIterations =
      if maxIterations ≤ iterationCount then true
      else decide (7 ≤ overallScore) && gaps.isEmpty := by
  unfold reviewIsSufficient
  by_cases hcap : maxIterations ≤ iterationCount
  · rw [if_pos hcap]
    split_ifs <;> rfl
  · rw [if_neg hcap]
    by_cases hs : 7 ≤ overallScore
    · cases gaps with
      | nil => rw [if_pos ⟨hs, rfl⟩]; simp [hs]
      | cons g gs =>
        rw [if_neg (fun hcon => List.noConfusion hcon.2), if_neg hcap]
        simp
    · rw [if_neg (fun hcon => hs hcon.1), if_neg hcap]
      simp [hs]

/-! ## PlanAndDispatch

`src/deep_research/nodes/brief.py` is not in the source tree; the README
documents its routing (`sends = [Send(...) for s in sections if s.status ==
"pending"]`) and its idempotence rule (幂等性: skip regeneration when
`sections` already exist), and the spec fixes the remaining behaviour. -/

/-- Ephemeral per-dispatch researcher task (spec §3). -/
structure ResearcherTask where
  sec : Section
  researchBrief : String
deriving DecidableEq, Repr

/-- Modelled from the spec: the dispatch step of `plan_sections_node` — for
every section with `status == pending`, create a ResearcherTask and mark the
section `researching`; other sections are untouched (the pending filter is
documented in the README routing snippet). -/
def dispatchPending (brief : String) (sections : List Section) :
    List Section × List ResearcherTask :=
  (sections.map (fun s =>
      if s.status = SectionStatus.pending then { s with status := SectionStatus.researching }
      else s),
    (sections.filter (fun s => s.status = SectionStatus.pending)).map
      (fun s => ⟨s, brief⟩))

/-- Modelled from the spec: a Section stub created at planning time
(`title`, `description`, `status=pending`, no content, no sources). -/
def mkStub (p : String × String) : Section :=
  ⟨p.1, p.2, SectionStatus.pending, "", []⟩

/-- Modelled from the spec: outline generation — one pending stub per planned
`(title, description)` pair of the planner model's structured output. -/
def generateOutline (outline : List (String × String)) : List Section :=
  outline.map mkStub

/-- Modelled from the spec: `plan_sections_node` — generate the outline only
when `sections` is empty (README idempotence rule), then dispatch every
pending section. `outline` stands for the planner model's structured output. -/
def plan_sections_node (outline : List (String × String)) (brief : String)
    (sections : List Section) : List Section × List ResearcherTask :=
  let secs := if sections.isEmpty then generateOutline outline else sections
  dispatchPending brief secs

/-- **C3**: dispatch targets exactly the pending sections — the dispatched
tasks carry precisely the sections that were `pending` immediately before the
call (in order), each pending section transitions to `researching`, and a
section in any other status is neither dispatched nor changed. -/
theorem c3_dispatch_exactly_pending (brief : String) (sections : List Section) :
    (dispatchPending brief sections).2.map ResearcherTask.sec =
        sections.filter (fun s => s.status = SectionStatus.pending)
      ∧ ∀ (i : Nat) (hi : i < sections.length),
          ((sections.get ⟨i, hi⟩).status = SectionStatus.pending →
            (dispatchPending brief sections).1[i]? =
              some { sections.get ⟨i, hi⟩ with status := SectionStatus.researching })
          ∧ ((sections.get ⟨i, hi⟩).status ≠ SectionStatus.pending →
            (dispatchPending brief sections).1[i]? = some (sections.get ⟨i, hi⟩)) := by
  constructor
  · rw [dispatchPending]
    simp only [List.map_map]
    have hid : (ResearcherTask.sec ∘ fun s => (⟨s, brief⟩ : ResearcherTask)) =
        fun s : Section => s := rfl
    rw [hid, List.map_id']
  · intro i hi
    constructor <;> intro hst <;> simp only [List.get_eq_getElem] at hst ⊢ <;>
      simp [dispatchPending, List.getElem?_eq_getElem hi, hst]

/-- Witness for C3: one pending and one completed section; the pending one is
transitioned and dispatched, the completed one is untouched. -/
theorem c3_witness :
    (dispatchPending "brief"
        [⟨"A", "a", SectionStatus.pending, "", []⟩,
         ⟨"B", "b", SectionStatus.completed, "done", []⟩]).1[0]? =
      some ⟨"A", "a", SectionStatus.researching, "", []⟩ := by
  have h := ((c3_dispatch_exactly_pending "brief"
      [⟨"A", "a", SectionStatus.pending, "", []⟩,
       ⟨"B", "b", SectionStatus.completed, "done", []⟩]).2 0 (by decide)).1 (by decide)
  simpa using h

/-- **C4**: with non-empty `sections`, PlanAndDispatch ignores the planner
output entirely (outline generation happens at most once per run), keeps every
existing section's title and description, and therefore cannot introduce
duplicate titles. -/
theorem c4_plan_outline_idempotent (outline outline' : List (String × String))
    (brief : String) (sections : List Section) (h : sections ≠ []) :
    plan_sections_node outline brief sections = plan_sections_node outline' brief sections
      ∧ (plan_sections_node outline brief sections).1.map Section.title =
          sections.map Section.title
      ∧ (plan_sections_node outline brief sections).1.map Section.description =
          sections.map Section.description
      ∧ ((sections.map Section.title).Nodup →
          ((plan_sections_node outline brief sections).1.map Section.title).Nodup) := by
  have hne : sections.isEmpty = false := by
    cases sections with
    | nil => exact absurd rfl h
    | cons x xs => rfl
  have htitle : (plan_sections_node outline brief sections).1.map Section.title =
      sections.map Section.title := by
    simp only [plan_sections_node, hne, Bool.false_eq_true, if_false, dispatchPending,
      List.map_map]
    apply List.map_congr_left
    intro s _
    by_cases hs : s.status = SectionStatus.pending <;> simp [hs]
  refine ⟨?_, htitle, ?_, ?_⟩
  · simp only [plan_sections_node, hne, Bool.false_eq_true, if_false]
  · simp only [plan_sections_node, hne, Bool.false_eq_true, if_false, dispatchPending,
      List.map_map]
    apply List.map_congr_left
    intro s _
    by_cases hs : s.status = SectionStatus.pending <;> simp [hs]
  · intro hnd
    rw [htitle]
    exact hnd

/-- Witness for C4 at a non-empty concrete state with two distinct outlines. -/
theorem c4_witness :
    plan_sections_node [("X", "x")] "brief" [⟨"A", "a", SectionStatus.pending, "", []⟩] =
        plan_sections_node [("Y", "y"), ("Z", "z")] "brief"
          [⟨"A", "a", SectionStatus.pending, "", []⟩]
      ∧ (plan_sections_node [("X", "x")] "brief"
          [⟨"A", "a", SectionStatus.pending, "", []⟩]).1.map Section.title = ["A"] := by
  have h := c4_plan_outline_idempotent [("X", "x")] [("Y", "y"), ("Z", "z")] "brief"
    [⟨"A", "a", SectionStatus.pending, "", []⟩] (by decide)
  exact ⟨h.1, by simpa using h.2.1⟩

/-- **C8**: when the outline is generated (empty `sections` at entry), an
outline respecting the planning prompt's size contract (the plan template asks
for 3–5 sections) yields between 3 and 7 Section stubs inclusive, each created
with its planned title and description and `status = pending`. -/
theorem c8_outline_stub_bounds (outline : List (String × String))
    (h3 : 3 ≤ outline.length) (h5 : outline.length ≤ 5) :
    3 ≤ (generateOutline outline).length ∧ (generateOutline outline).length ≤ 7
      ∧ ∀ (i : Nat) (hi : i < outline.length),
          (generateOutline outline)[i]? =
            some ⟨(outline.get ⟨i, hi⟩).1, (outline.get ⟨i, hi⟩).2,
              SectionStatus.pending, "", []⟩ := by
  refine ⟨by simpa [generateOutline] using h3, ?_, ?_⟩
  · have : (generateOutline outline).length = outline.length := by simp [generateOutline]
    omega
  · intro i hi
    simp [generateOutline, mkStub, List.getElem?_map, List.getElem?_eq_getElem hi]

/-- Witness for C8 at a three-entry outline. -/
theorem c8_witness :
    3 ≤ (generateOutline [("A", "a"), ("B", "b"), ("C", "c")]).length
      ∧ (generateOutline [("A", "a"), ("B", "b"), ("C", "c")])[0]? =
          some ⟨"A", "a", SectionStatus.pending, "", []⟩ := by
  have h := c8_outline_stub_bounds [("A", "a"), ("B", "b"), ("C", "c")]
    (by decide) (by decide)
  exact ⟨h.1, by simpa using h.2.2 0 (by decide)⟩

/-! ## Review retry routing

`src/deep_research/nodes/reflect.py` is not in the source tree; the README
documents the routing (打回时不重新生成大纲，仅将特定章节状态重置为 pending,
然后直接进入 Dispatch) and the spec fixes the remaining behaviour. -/

/-- Where the Review node routes next. -/
inductive ReviewRoute where
  | dispatch
  | report
deriving DecidableEq, Repr

/-- Modelled from the spec: reset to `pending` the status of every section
whose title occurs (exact, case-sensitive match) in `sectionsToRetry`; all
other fields and all other sections are untouched. -/
def applyRetry (sectionsToRetry : List String) (sections : List Section) : List Section :=
  sections.map (fun s =>
    if s.title ∈ sectionsToRetry then { s with status := SectionStatus.pending } else s)

/-- Modelled from the spec: the Review node's state effect — when sufficient,
leave the sections alone and go to Report; otherwise reset the retry sections
to `pending`, increment `reviewIterationCount`, and loop back to dispatch
(never to outline regeneration). -/
def review_node (isSufficient : Bool) (sectionsToRetry : List String)
    (sections : List Section) (reviewIterationCount : Nat) :
    List Section × Nat × ReviewRoute :=
  if isSufficient then (sections, reviewIterationCount, ReviewRoute.report)
  else (applyRetry sectionsToRetry sections, reviewIterationCount + 1, ReviewRoute.dispatch)

/-- **C5**: on an insufficient review, a section whose title is listed in
`sectionsToRetry` has only its status reset to `pending` (title, description,
content and sources are kept verbatim), a section not listed is entirely
unchanged, the iteration counter is incremented by exactly one, and the node
routes back to dispatch. -/
theorem c5_review_retry_frame (sectionsToRetry : List String)
    (sections : List Section) (reviewIterationCount : Nat) :
    (review_node false sectionsToRetry sections reviewIterationCount).2.1 =
        reviewIterationCount + 1
      ∧ (review_node false sectionsToRetry sections reviewIterationCount).2.2 =
          ReviewRoute.dispatch
      ∧ ∀ (i : Nat) (hi : i < sections.length),
          ((sections.get ⟨i, hi⟩).title ∈ sectionsToRetry →
            (review_node false sectionsToRetry sections reviewIterationCount).1[i]? =
              some { sections.get ⟨i, hi⟩ with status := SectionStatus.pending })
          ∧ ((sections.get ⟨i, hi⟩).title ∉ sectionsToRetry →
            (review_node false sectionsToRetry sections reviewIterationCount).1[i]? =
              some (sections.get ⟨i, hi⟩)) := by
  refine ⟨rfl, rfl, ?_⟩
  intro i hi
  constructor <;> intro hst <;> simp only [List.get_eq_getElem] at hst ⊢ <;>
    simp [review_node, applyRetry, List.getElem?_eq_getElem hi, hst]

/-- Witness for C5: section B is reset to pending keeping its content, section
A is untouched, the counter goes from 0 to 1, and the route is dispatch. -/
theorem c5_witness :
    (review_node false ["B"]
        [⟨"A", "a", SectionStatus.completed, "ca", ["u1"]⟩,
         ⟨"B", "b", SectionStatus.completed, "cb", ["u2"]⟩] 0).2.1 = 1
      ∧ (review_node false ["B"]
          [⟨"A", "a", SectionStatus.completed, "ca", ["u1"]⟩,
           ⟨"B", "b", SectionStatus.completed, "cb", ["u2"]⟩] 0).1[1]? =
        some ⟨"B", "b", SectionStatus.pending, "cb", ["u2"]⟩ := by
  have h := c5_review_retry_frame ["B"]
    [⟨"A", "a", SectionStatus.completed, "ca", ["u1"]⟩,
     ⟨"B", "b", SectionStatus.completed, "cb", ["u2"]⟩] 0
  exact ⟨h.1, by simpa using (h.2.2 1 (by decide)).1 (by decide)⟩

/-- **C7**: a retry title that matches no existing section title is simply
ignored — removing it from `sectionsToRetry` gives the very same state, so no
section's status changes because of that entry and no error is possible. -/
theorem c7_unmatched_retry_ignored (t : String) (sectionsToRetry : List String)
    (sections : List Section) (h : ∀ s ∈ sections, s.title ≠ t) :
    applyRetry (t :: sectionsToRetry) sections = applyRetry sectionsToRetry sections := by
  unfold applyRetry
  apply List.map_congr_left
  intro s hs
  have hst : s.title ≠ t := h s hs
  have hmem : (s.title ∈ t :: sectionsToRetry) ↔ s.title ∈ sectionsToRetry := by
    constructor
    · intro hm
      rcases List.mem_cons.mp hm with hEq | hm'
      · exact absurd hEq hst
      · exact hm'
    · exact List.mem_cons_of_mem t
  by_cases hmem2 : s.title ∈ sectionsToRetry
  · rw [if_pos (hmem.mpr hmem2), if_pos hmem2]
  · rw [if_neg (fun hc => hmem2 (hmem.mp hc)), if_neg hmem2]

/-- Witness for C7: the nonexistent title "Nonexistent" has no effect on a
state with a real section. -/
theorem c7_witness :
    applyRetry ["Nonexistent", "A"] [⟨"A", "a", SectionStatus.completed, "c", []⟩] =
      applyRetry ["A"] [⟨"A", "a", SectionStatus.completed, "c", []⟩] :=
  c7_unmatched_retry_ignored "Nonexistent" ["A"]
    [⟨"A", "a", SectionStatus.completed, "c", []⟩] (by decide)

/-! ## ResearchProgress UI component

TypeScript source (`ui/src/...`, part of the generative-UI components):
```
const completed = sections.filter((s) => s.status === "completed").length;
const total = sections.length;
const progress = total > 0 ? (completed / total) * 100 : 0;
```
Embedded over exact rationals. -/

/-- Progress value computed by the `ResearchProgress` component. -/
def researchProgress (sections : List Section) : ℚ :=
  let completed := (sections.filter (fun s => s.status = SectionStatus.completed)).length
  let total := sections.length
  if 0 < total then ((completed : ℚ) / (total : ℚ)) * 100 else 0

/-- **C9**: the progress is `(completed / total) * 100` for a non-empty
section list and `0` for an empty one (the guard makes division by zero
unreachable), and it always lies within `[0, 100]`. -/
theorem c9_research_progress_safe (sections : List Section) :
    (sections ≠ [] → researchProgress sections =
        (((sections.filter (fun s => s.status = SectionStatus.completed)).length : ℚ) /
          (sections.length : ℚ)) * 100)
      ∧ (sections = [] → researchProgress sections = 0)
      ∧ 0 ≤ researchProgress sections ∧ researchProgress sections ≤ 100 := by
  refine ⟨?_, ?_, ?_, ?_⟩
  · intro h
    unfold researchProgress
    rw [if_pos (List.length_pos.mpr h)]
  · intro h
    subst h
    rfl
  · simp only [researchProgress]
    split_ifs with hpos
    · positivity
    · exact le_refl 0
  · simp only [researchProgress]
    split_ifs with hpos
    · have hle : (((sections.filter (fun s => s.status = SectionStatus.completed)).length : ℚ))
          ≤ (sections.length : ℚ) := by
        exact_mod_cast List.length_filter_le _ sections
      have ht : (0 : ℚ) < (sections.length : ℚ) := by exact_mod_cast hpos
      have h1 : ((sections.filter (fun s => s.status = SectionStatus.completed)).length : ℚ) /
          (sections.length : ℚ) ≤ 1 := (div_le_one ht).mpr hle
      have h2 := mul_le_mul_of_nonneg_right h1 (by norm_num : (0 : ℚ) ≤ 100)
      simpa using h2
    · norm_num

/-- Witness for C9: one completed section out of two gives 50, within
bounds. -/
theorem c9_witness :
    researchProgress
        [⟨"A", "a", SectionStatus.completed, "c", []⟩,
         ⟨"B", "b", SectionStatus.pending, "", []⟩] = 50 := by
  have h := (c9_research_progress_safe
    [⟨"A", "a", SectionStatus.completed, "c", []⟩,
     ⟨"B", "b", SectionStatus.pending, "", []⟩]).1 (by decide)
  rw [h]
  norm_num [List.filter,
    show (decide (SectionStatus.pending = SectionStatus.completed)) = false from by decide]

/-! ## `getFinalAnswerContent` (MessageBubble component)

TypeScript source:
```
function getFinalAnswerContent(segments?: MessageSegment[], fallbackContent?: string): string {
  if (segments && segments.length > 0) {
    const textSegments = segments.filter(
      (seg): seg is { type: 'text'; content: string } => seg.type === 'text'
    );
    if (textSegments.length > 0) {
      return textSegments[textSegments.length - 1].content;
    }
    return '';
  }
  return fallbackContent || '';
}
```
`MessageSegment = TextSegment | ToolCallsSegment` (`lib/api.ts`); the tool-call
payload is irrelevant here and modelled opaquely. -/

/-- A message segment: markdown text or a batch of tool calls. -/
inductive MessageSegment where
  | text (content : String)
  | tool_calls (toolCalls : List String)
deriving DecidableEq, Repr

/-- The `seg.type === 'text'` test. -/
def MessageSegment.isText : MessageSegment → Bool
  | .text _ => true
  | .tool_calls _ => false

/-- The `.content` field of a text segment (only read on text segments). -/
def MessageSegment.textContent : MessageSegment → String
  | .text c => c
  | .tool_calls _ => ""

/-- `getFinalAnswerContent` from the MessageBubble component: the content of
the last text segment when one exists; `""` when segments exist but none is
text; the fallback (or `""`) when segments are missing or empty. -/
def getFinalAnswerContent (segments : Option (List MessageSegment))
    (fallbackContent : Option String) : String :=
  match segments with
  | some segs =>
    if 0 < segs.length then
      match (segs.filter MessageSegment.isText).getLast? with
      | some seg => seg.textContent
      | none => ""
    else fallbackContent.getD ""
  | none => fallbackContent.getD ""

theorem getLast?_filter_eq_find?_reverse {α : Type} (p : α → Bool) :
    ∀ (l : List α), (l.filter p).getLast? = l.reverse.find? p := by
  intro l
  induction l with
  | nil => simp
  | cons x xs ih =>
    rw [List.reverse_cons, List.find?_append, ← ih]
    by_cases hx : p x = true
    · rw [List.filter_cons_of_pos hx]
      rcases hfl : (xs.filter p).getLast? with _ | y
      · have hnil : xs.filter p = [] := List.getLast?_eq_none_iff.mp hfl
        simp [hnil, List.find?, hx]
      · have hne : xs.filter p ≠ [] := by
          intro hc
          rw [hc] at hfl
          simp at hfl
        cases hfp : xs.filter p with
        | nil => exact absurd hfp hne
        | cons z zs =>
          rw [hfp] at hfl
          rw [List.getLast?_cons_cons, hfl]
          rfl
    · rw [List.filter_cons_of_neg (by simpa using hx)]
      have hfx : List.find? p [x] = none := by
        have hx' : p x = false := by simpa using hx
        simp [List.find?, hx']
      rw [hfx]
      rcases h2 : (xs.filter p).getLast? with _ | y <;> rfl

/-- **C10**: with non-empty segments the result is the content of the last
text segment; with non-empty segments but no text segment the result is `""`
and the fallback is not consulted; with missing or empty segments the result
is the fallback, defaulting to `""`. -/
theorem c10_final_answer_content (segs : List MessageSegment) (fb : Option String)
    (seg : MessageSegment) :
    (segs ≠ [] → segs.reverse.find? MessageSegment.isText = some seg →
        getFinalAnswerContent (some segs) fb = seg.textContent)
      ∧ (segs ≠ [] → segs.reverse.find? MessageSegment.isText = none →
          getFinalAnswerContent (some segs) fb = "")
      ∧ getFinalAnswerContent (some []) fb = fb.getD ""
      ∧ getFinalAnswerContent none fb = fb.getD "" := by
  refine ⟨?_, ?_, rfl, rfl⟩
  · intro hne hfind
    have hlast : (segs.filter MessageSegment.isText).getLast? = some seg := by
      rw [getLast?_filter_eq_find?_reverse, hfind]
    simp only [getFinalAnswerContent, if_pos (List.length_pos.mpr hne), hlast]
  · intro hne hfind
    have hlast : (segs.filter MessageSegment.isText).getLast? = none := by
      rw [getLast?_filter_eq_find?_reverse, hfind]
    simp only [getFinalAnswerContent, if_pos (List.length_pos.mpr hne), hlast]

/-- Witness for C10: the final answer skips the tool-call batch and the
intermediate text and returns the last text segment's content. -/
theorem c10_witness :
    getFinalAnswerContent
        (some [MessageSegment.text "Let me try...",
               MessageSegment.tool_calls ["search"],
               MessageSegment.text "Final answer."])
        (some "fallback") = "Final answer." := by
  have h := (c10_final_answer_content
    [MessageSegment.text "Let me try...",
     MessageSegment.tool_calls ["search"],
     MessageSegment.text "Final answer."]
    (some "fallback") (MessageSegment.text "Final answer.")).1 (by decide) (by decide)
  simpa using h

end ResearchAgent
